import Mathlib

/-!
# Verification of `pyscf/pbc/tdscf/krhf_slow_supercell.py`

A shallow embedding of the TDHF (time-dependent Hartree-Fock) module for
periodic systems with multiple k-points, together with theorems settling the
specification claims about it.

Scalars of the electron-repulsion-integral (ERI) machinery are embedded as
rationals (`ℚ`); eigenvector/amplitude data, which the code normalizes with a
real square root, is embedded as complex numbers (`ℂ`).  Dense numpy arrays
are embedded as total index functions together with explicit shape data.
-/

open Finset

/-- The periodic mean-field model consumed by the module (external collaborator
described in the spec §3): per-k-point molecular-orbital coefficients and sizes,
the raw momentum-conservation table of the external `get_kconserv` utility, the
atomic-orbital two-electron integrals of the density-fitting backend, and the
dtype flag tested by `numpy.iscomplexobj` in `kernel`. -/
structure KModel where
  nk : ℕ
  nocc : ℕ → ℕ
  nmo : ℕ → ℕ
  mo_coeff : ℕ → ℕ → ℕ → ℚ
  mo_energy : ℕ → ℕ → ℚ
  get_kconserv : ℕ → ℕ → ℕ → ℕ
  eriAO : ℕ → ℕ → ℕ → ℕ → ℕ → ℕ → ℕ → ℕ → ℚ
  iscomplex : Bool

/-- `self.kconserv`: the raw `get_kconserv` table with axes 1 and 2 swapped,
as computed in `PhysERI.__init__` (`get_kconserv(...).swapaxes(1, 2)`). -/
def physKconserv (m : KModel) (k1 k2 k3 : ℕ) : ℕ :=
  m.get_kconserv k1 k3 k2

/-- Modelled from the spec: the density-fitting integral backend's AO→MO
transform `with_df.ao2mo(coeff, kpts, compact=False)` (spec §6), reshaped to
the four molecular-orbital axes.  It is the standard four-index contraction,
linear in each coefficient argument: entry `(p,q,r,s)` contracts the AO
integrals at the four k-points against one coefficient column per axis. -/
def df_ao2mo (m : KModel) (c0 c1 c2 c3 : ℕ → ℕ → ℚ) (q0 q1 q2 q3 : ℕ)
    (p q r s : ℕ) : ℚ :=
  ∑ a ∈ range (m.nmo q0), ∑ b ∈ range (m.nmo q1),
    ∑ c ∈ range (m.nmo q2), ∑ d ∈ range (m.nmo q3),
      c0 a p * c1 b q * c2 c r * c3 d s * m.eriAO q0 q1 q2 q3 a b c d

/-- `PhysERI.ao2mo_k`: permutes coefficients and k-points `(0, 2, 1, 3)`,
calls the backend transform, reshapes to the coefficient dimensions and swaps
axes 1 and 2 (physicist index ordering). -/
def ao2mo_k (m : KModel) (c0 c1 c2 c3 : ℕ → ℕ → ℚ) (q0 q1 q2 q3 : ℕ)
    (p q r s : ℕ) : ℚ :=
  df_ao2mo m c0 c2 c1 c3 q0 q2 q1 q3 p r q s

/-- `pyscf.pbc.lib.kpts_helper.loop_kkk` (external helper; spec §4.1:
"Enumeration helper produces all ordered triples (k1,k2,k3) over
`range(N_k)^3`"). -/
def loop_kkk (n : ℕ) : List (ℕ × ℕ × ℕ) :=
  (List.range n).flatMap fun a =>
    (List.range n).flatMap fun b =>
      (List.range n).map fun c => (a, b, c)

/-- The keys of `PhysERI.__full_eri_k__`: for every triple produced by
`loop_kkk`, the quadruple closed by the conservation map
(`k = k + (self.kconserv[k],)` in `PhysERI.__init__`). -/
def cacheKeys (m : KModel) : List (ℕ × ℕ × ℕ × ℕ) :=
  (loop_kkk m.nk).map fun t => (t.1, t.2.1, t.2.2, physKconserv m t.1 t.2.1 t.2.2)

/-- The dense tensor cached by `PhysERI.__init__` under key `k`:
`ao2mo_k` of the full (unsliced) MO coefficients at the key's k-points. -/
def full_eri_k (m : KModel) (k : ℕ × ℕ × ℕ × ℕ) (p q r s : ℕ) : ℚ :=
  ao2mo_k m (m.mo_coeff k.1) (m.mo_coeff k.2.1) (m.mo_coeff k.2.2.1)
    (m.mo_coeff k.2.2.2) k.1 k.2.1 k.2.2.1 k.2.2.2 p q r s

/-- A dense 4-index block: its numpy shape, and its entries as a total
index function. -/
structure Blk where
  shape : ℕ × ℕ × ℕ × ℕ
  entry : ℕ → ℕ → ℕ → ℕ → ℚ

/-- Axis length of a block: `nocc[k]` for an occupied (`'o'`) axis letter,
`nmo[k] - nocc[k]` otherwise (virtual). -/
def axSize (m : KModel) (c : Char) (k : ℕ) : ℕ :=
  if c = 'o' then m.nocc k else m.nmo k - m.nocc k

/-- Start offset of a slice along one axis: `0` for an occupied axis letter
(`[:nocc]`), `nocc[k]` otherwise (`[nocc:]`). -/
def axOff (m : KModel) (c : Char) (k : ℕ) : ℕ :=
  if c = 'o' then 0 else m.nocc k

/-- The numpy shape of the occupied/virtual block selected by an `item`
letter pattern at k-point quadruple `k`. -/
def blkShape (m : KModel) (item : Char × Char × Char × Char)
    (k : ℕ × ℕ × ℕ × ℕ) : ℕ × ℕ × ℕ × ℕ :=
  (axSize m item.1 k.1, axSize m item.2.1 k.2.1,
   axSize m item.2.2.1 k.2.2.1, axSize m item.2.2.2 k.2.2.2)

/-- `numpy.zeros` of the occupied/virtual block shape, as built in the `else`
branches of both `__calc_block__` implementations. -/
def zeroBlk (m : KModel) (item : Char × Char × Char × Char)
    (k : ℕ × ℕ × ℕ × ℕ) : Blk :=
  ⟨blkShape m item k, fun _ _ _ _ => 0⟩

/-- The occupied/virtual slice of the cached full tensor, as taken by
`PhysERI.__calc_block__` when the key is present in `__full_eri_k__`. -/
def sliceBlk (m : KModel) (item : Char × Char × Char × Char)
    (k : ℕ × ℕ × ℕ × ℕ) : Blk :=
  ⟨blkShape m item k, fun i0 i1 i2 i3 =>
    full_eri_k m k (axOff m item.1 k.1 + i0) (axOff m item.2.1 k.2.1 + i1)
      (axOff m item.2.2.1 k.2.2.1 + i2) (axOff m item.2.2.2 k.2.2.2 + i3)⟩

/-- `PhysERI.__calc_block__`: a slice of the cached tensor when the quadruple
is a cache key, otherwise a zero block of the occupied/virtual shape. -/
def PhysERI_calc_block (m : KModel) (item : Char × Char × Char × Char)
    (k : ℕ × ℕ × ℕ × ℕ) : Blk :=
  if k ∈ cacheKeys m then sliceBlk m item k else zeroBlk m item k

/-- The MO coefficient column slice `mo_coeff[k][:, :nocc]` (occupied letter)
or `mo_coeff[k][:, nocc:]` (virtual letter) used by
`PhysERI4.__calc_block__`. -/
def slicedCoeff (m : KModel) (c : Char) (k : ℕ) : ℕ → ℕ → ℚ :=
  fun a t => m.mo_coeff k a (axOff m c k + t)

/-- `PhysERI4.__calc_block__`: when `kconserv[k1,k2,k3] == k4`, transform the
occupied/virtual-restricted coefficient slices; otherwise a zero block of the
occupied/virtual shape. -/
def PhysERI4_calc_block (m : KModel) (item : Char × Char × Char × Char)
    (k : ℕ × ℕ × ℕ × ℕ) : Blk :=
  if physKconserv m k.1 k.2.1 k.2.2.1 = k.2.2.2 then
    ⟨blkShape m item k, fun p q r s =>
      ao2mo_k m (slicedCoeff m item.1 k.1) (slicedCoeff m item.2.1 k.2.1)
        (slicedCoeff m item.2.2.1 k.2.2.1) (slicedCoeff m item.2.2.2 k.2.2.2)
        k.1 k.2.1 k.2.2.1 k.2.2.2 p q r s⟩
  else zeroBlk m item k

/-- `PhysERI8.__calc_block__` is inherited unchanged from `PhysERI4`. -/
def PhysERI8_calc_block (m : KModel) (item : Char × Char × Char × Char)
    (k : ℕ × ℕ × ℕ × ℕ) : Blk :=
  PhysERI4_calc_block m item k

/-- `PhysERI4.symmetries`: four index permutations of the two-electron tensor,
each with a flag marking whether the related block needs complex
conjugation. -/
def PhysERI4_symmetries : List ((ℕ × ℕ × ℕ × ℕ) × Bool) :=
  [((0, 1, 2, 3), false),
   ((1, 0, 3, 2), false),
   ((2, 3, 0, 1), true),
   ((3, 2, 1, 0), true)]

/-- `PhysERI8.symmetries`: eight index permutations, all with conjugation
flag `False` (real orbitals). -/
def PhysERI8_symmetries : List ((ℕ × ℕ × ℕ × ℕ) × Bool) :=
  [((0, 1, 2, 3), false),
   ((1, 0, 3, 2), false),
   ((2, 3, 0, 1), false),
   ((3, 2, 1, 0), false),
   ((2, 1, 0, 3), false),
   ((3, 0, 1, 2), false),
   ((0, 3, 2, 1), false),
   ((1, 2, 3, 0), false)]

theorem mem_loop_kkk (n : ℕ) (t : ℕ × ℕ × ℕ) :
    t ∈ loop_kkk n ↔ t.1 < n ∧ t.2.1 < n ∧ t.2.2 < n := by
  obtain ⟨a, b, c⟩ := t
  simp only [loop_kkk, List.mem_flatMap, List.mem_map, List.mem_range]
  constructor
  · rintro ⟨x, hx, y, hy, z, hz, he⟩
    obtain ⟨rfl, rfl, rfl⟩ : x = a ∧ y = b ∧ z = c := by
      exact ⟨congrArg Prod.fst he, congrArg (Prod.fst ∘ Prod.snd) he,
        congrArg (Prod.snd ∘ Prod.snd) he⟩
    exact ⟨hx, hy, hz⟩
  · rintro ⟨h1, h2, h3⟩
    exact ⟨a, h1, b, h2, c, h3, rfl⟩

theorem loop_kkk_eq_product (n : ℕ) :
    loop_kkk n = (List.range n) ×ˢ ((List.range n) ×ˢ (List.range n)) := by
  show loop_kkk n =
    List.product (List.range n) (List.product (List.range n) (List.range n))
  simp only [loop_kkk, List.product, List.map_flatMap, List.map_map]
  rfl

theorem loop_kkk_length (n : ℕ) : (loop_kkk n).length = n ^ 3 := by
  rw [loop_kkk_eq_product, List.length_product, List.length_product,
    List.length_range]
  ring

theorem loop_kkk_nodup (n : ℕ) : (loop_kkk n).Nodup := by
  rw [loop_kkk_eq_product]
  exact (List.nodup_range n).product
    ((List.nodup_range n).product (List.nodup_range n))

theorem mem_cacheKeys (m : KModel) (k : ℕ × ℕ × ℕ × ℕ) :
    k ∈ cacheKeys m ↔
      k.1 < m.nk ∧ k.2.1 < m.nk ∧ k.2.2.1 < m.nk ∧
        k.2.2.2 = physKconserv m k.1 k.2.1 k.2.2.1 := by
  obtain ⟨a, b, c, d⟩ := k
  constructor
  · intro h
    simp only [cacheKeys, List.mem_map] at h
    obtain ⟨t, ht, he⟩ := h
    rw [mem_loop_kkk] at ht
    obtain ⟨h1, h2, h3⟩ := ht
    cases he
    exact ⟨h1, h2, h3, rfl⟩
  · rintro ⟨h1, h2, h3, h4⟩
    simp only [cacheKeys, List.mem_map]
    refine ⟨(a, b, c), (mem_loop_kkk m.nk (a, b, c)).2 ⟨h1, h2, h3⟩, ?_⟩
    simp only at h4
    rw [h4]

theorem cacheKeys_length (m : KModel) : (cacheKeys m).length = m.nk ^ 3 := by
  rw [cacheKeys, List.length_map, loop_kkk_length]

theorem cacheKeys_nodup (m : KModel) : (cacheKeys m).Nodup := by
  have hinj : Function.Injective
      (fun t : ℕ × ℕ × ℕ => (t.1, t.2.1, t.2.2, physKconserv m t.1 t.2.1 t.2.2)) := by
    rintro ⟨a, b, c⟩ ⟨a', b', c'⟩ h
    simp only [Prod.mk.injEq] at h
    obtain ⟨e1, e2, e3, -⟩ := h
    simp [e1, e2, e3]
  exact (loop_kkk_nodup m.nk).map hinj

/-- C6: after `PhysERI.__init__`, the block cache holds exactly one entry per
ordered triple `(k1,k2,k3)` of the `N_k^3` triples, keyed by the quadruple
closed under the conservation map; every cached key satisfies the conservation
map, and block retrieval for a cached quadruple is the pure occupied/virtual
slice of the cached tensor.  (The embedding is pure, so the cache built at
construction is immutable by construction.) -/
theorem PhysERI_cache_invariants (m : KModel) (item : Char × Char × Char × Char)
    (k1 k2 k3 : ℕ) (h1 : k1 < m.nk) (h2 : k2 < m.nk) (h3 : k3 < m.nk) :
    (cacheKeys m).length = m.nk ^ 3 ∧
    (cacheKeys m).Nodup ∧
    (∀ k ∈ cacheKeys m, k.2.2.2 = physKconserv m k.1 k.2.1 k.2.2.1) ∧
    (k1, k2, k3, physKconserv m k1 k2 k3) ∈ cacheKeys m ∧
    PhysERI_calc_block m item (k1, k2, k3, physKconserv m k1 k2 k3) =
      sliceBlk m item (k1, k2, k3, physKconserv m k1 k2 k3) := by
  have hmem : (k1, k2, k3, physKconserv m k1 k2 k3) ∈ cacheKeys m :=
    (mem_cacheKeys m _).2 ⟨h1, h2, h3, rfl⟩
  refine ⟨cacheKeys_length m, cacheKeys_nodup m, ?_, hmem, ?_⟩
  · intro k hk
    exact ((mem_cacheKeys m k).1 hk).2.2.2
  · simp only [PhysERI_calc_block, if_pos hmem]

/-- C2: for a momentum-conserving quadruple, the block of the eager
no-symmetry provider (an occupied/virtual slice of the cached fully
transformed tensor) coincides, shape and entries, with the block of the
4-fold provider (a transform of the occupied/virtual-restricted coefficient
slices). -/
theorem PhysERI_block_eq_PhysERI4_block (m : KModel)
    (item : Char × Char × Char × Char) (k1 k2 k3 k4 : ℕ)
    (h1 : k1 < m.nk) (h2 : k2 < m.nk) (h3 : k3 < m.nk)
    (hc : physKconserv m k1 k2 k3 = k4) :
    PhysERI_calc_block m item (k1, k2, k3, k4) =
      PhysERI4_calc_block m item (k1, k2, k3, k4) := by
  have hmem : (k1, k2, k3, k4) ∈ cacheKeys m :=
    (mem_cacheKeys m _).2 ⟨h1, h2, h3, hc.symm⟩
  simp only [PhysERI_calc_block, PhysERI4_calc_block, if_pos hmem, if_pos hc]
  rfl

/-- C3: for a quadruple failing momentum conservation, each provider's block
retrieval returns (without any failure) the all-zero block whose axis sizes
are `nocc[k]` for an occupied axis letter and `nmo[k] - nocc[k]` for a
virtual one. -/
theorem calc_block_conservation_miss (m : KModel)
    (item : Char × Char × Char × Char) (k1 k2 k3 k4 : ℕ)
    (h : physKconserv m k1 k2 k3 ≠ k4) :
    PhysERI_calc_block m item (k1, k2, k3, k4) = zeroBlk m item (k1, k2, k3, k4) ∧
    PhysERI4_calc_block m item (k1, k2, k3, k4) = zeroBlk m item (k1, k2, k3, k4) ∧
    PhysERI8_calc_block m item (k1, k2, k3, k4) = zeroBlk m item (k1, k2, k3, k4) ∧
    zeroBlk m item (k1, k2, k3, k4) =
      ⟨((if item.1 = 'o' then m.nocc k1 else m.nmo k1 - m.nocc k1),
        (if item.2.1 = 'o' then m.nocc k2 else m.nmo k2 - m.nocc k2),
        (if item.2.2.1 = 'o' then m.nocc k3 else m.nmo k3 - m.nocc k3),
        (if item.2.2.2 = 'o' then m.nocc k4 else m.nmo k4 - m.nocc k4)),
       fun _ _ _ _ => 0⟩ := by
  have hmem : (k1, k2, k3, k4) ∉ cacheKeys m := by
    intro hm
    exact h ((mem_cacheKeys m _).1 hm).2.2.2.symm
  refine ⟨?_, ?_, ?_, rfl⟩
  · simp only [PhysERI_calc_block, if_neg hmem]
  · simp only [PhysERI4_calc_block, if_neg h]
  · simp only [PhysERI8_calc_block, PhysERI4_calc_block, if_neg h]

/-- C4 counterexample: the permutation `(2,3,0,1)` is shared by both symmetry
lists, but the 4-fold provider declares it with conjugation flag `True` while
the 8-fold provider declares it with flag `False` — so the 8-fold list does
not carry the 4-fold flags on the shared permutations. -/
theorem PhysERI8_flag_differs_from_PhysERI4 :
    ((2, 3, 0, 1), true) ∈ PhysERI4_symmetries ∧
    ((2, 3, 0, 1), true) ∉ PhysERI8_symmetries ∧
    ((2, 3, 0, 1), false) ∈ PhysERI8_symmetries := by
  decide

/-- C4 amended: the 8-fold provider's list has exactly 8 entries, namely the
4 index permutations of the 4-fold provider followed by 4 additional
permutations, and every entry carries conjugation flag `False` (the 4-fold
provider's `True` flags on the two conjugated permutations are replaced by
`False` for real orbitals). -/
theorem PhysERI8_symmetries_spec :
    PhysERI8_symmetries.length = 8 ∧
    PhysERI8_symmetries.map Prod.fst =
      PhysERI4_symmetries.map Prod.fst ++
        [(2, 1, 0, 3), (3, 0, 1, 2), (0, 3, 2, 1), (1, 2, 3, 0)] ∧
    (∀ e ∈ PhysERI8_symmetries, e.2 = false) ∧
    PhysERI4_symmetries.length = 4 := by
  decide

/-! ## Eigenvector reshaping and normalization (`vector_to_amplitudes`) -/

/-- An eigenvector matrix: column `r` is the raw eigenvector of root `r`. -/
abbrev Vecs := ℕ → ℕ → ℂ

/-- An amplitude tensor, indexed `(root, x/y, k1, k2, occ, virt)`. -/
abbrev Amps := ℕ → ℕ → ℕ → ℕ → ℕ → ℕ → ℂ

/-- Row-major (C-order) flattening of the five non-root axes
`(x, k1, k2, occ, virt)` with extents `(2, nk, nk, no, nv)`. -/
def flat5 (nk no nv x k1 k2 o v : ℕ) : ℕ :=
  (((x * nk + k1) * nk + k2) * no + o) * nv + v

/-- `vectors.reshape(2, nk, nk, nocc, nmo - nocc, nroots)`: element
`(x, k1, k2, o, v, r)` of the reshaped 6-axis tensor is row
`flat5 x k1 k2 o v`, column `r`, of the eigenvector matrix. -/
def reshaped (vectors : Vecs) (nk no nv x k1 k2 o v r : ℕ) : ℂ :=
  vectors (flat5 nk no nv x k1 k2 o v) r

/-- `(abs(vectors) ** 2).sum(axis=(1, 2, 3, 4))`: the squared-magnitude sum
over the two k-point axes and the occupied and virtual axes, for excitation
direction `x` (0 or 1) and root `r`. -/
def sumNormSq (vectors : Vecs) (nk no nv x r : ℕ) : ℝ :=
  ∑ k1 ∈ range nk, ∑ k2 ∈ range nk, ∑ o ∈ range no, ∑ v ∈ range nv,
    Complex.normSq (reshaped vectors nk no nv x k1 k2 o v r)

/-- `norm = 2 * (norm[0] - norm[1])`: the bosonic normalization coefficient
of root `r`. -/
def normCoef (vectors : Vecs) (nk no nv r : ℕ) : ℝ :=
  2 * (sumNormSq vectors nk no nv 0 r - sumNormSq vectors nk no nv 1 r)

/-- The normalized, root-first-transposed amplitude tensor produced on the
success path of `vector_to_amplitudes`: each entry of root `r` is divided by
`norm[r] ** .5` and the root axis is transposed to the front
(`transpose(5, 0, 1, 2, 3, 4)`). -/
noncomputable def amplitudes (vectors : Vecs) (nocc nmo : List ℕ) : Amps :=
  fun r x k1 k2 o v =>
    reshaped vectors nocc.length (nocc.headD 0) (nmo.headD 0 - nocc.headD 0)
        x k1 k2 o v r /
      (Real.sqrt (normCoef vectors nocc.length (nocc.headD 0)
        (nmo.headD 0 - nocc.headD 0) r) : ℂ)

/-- `vector_to_amplitudes(vectors, nocc, nmo)`: raises `NotImplementedError`
when the per-k-point occupied counts are not all equal, then when the
per-k-point AO counts are not all equal, and otherwise reshapes, normalizes
and transposes the eigenvectors into amplitudes. -/
noncomputable def vector_to_amplitudes (vectors : Vecs) (nocc nmo : List ℕ) :
    Except String Amps :=
  if nocc.all (fun i => i == nocc.headD 0) then
    if nmo.all (fun i => i == nmo.headD 0) then
      .ok (amplitudes vectors nocc nmo)
    else .error "Varying AO spaces are not implemented yet"
  else .error "Varying occupation numbers are not implemented yet"

/-- C1: whenever `vector_to_amplitudes` returns amplitudes and root `r` has a
positive normalization coefficient, the returned root satisfies
`2 * (sum|x|^2 - sum|y|^2) = 1` over all non-root axes. -/
theorem vector_to_amplitudes_normalized (vectors : Vecs) (nocc nmo : List ℕ)
    (amps : Amps) (r : ℕ)
    (hok : vector_to_amplitudes vectors nocc nmo = Except.ok amps)
    (hpos : 0 < normCoef vectors nocc.length (nocc.headD 0)
      (nmo.headD 0 - nocc.headD 0) r) :
    2 * ((∑ k1 ∈ range nocc.length, ∑ k2 ∈ range nocc.length,
            ∑ o ∈ range (nocc.headD 0), ∑ v ∈ range (nmo.headD 0 - nocc.headD 0),
              Complex.normSq (amps r 0 k1 k2 o v)) -
         (∑ k1 ∈ range nocc.length, ∑ k2 ∈ range nocc.length,
            ∑ o ∈ range (nocc.headD 0), ∑ v ∈ range (nmo.headD 0 - nocc.headD 0),
              Complex.normSq (amps r 1 k1 k2 o v))) = 1 := by
  have hamp : amps = amplitudes vectors nocc nmo := by
    unfold vector_to_amplitudes at hok
    split_ifs at hok
    exact (Except.ok.inj hok).symm
  subst hamp
  have hsq : Real.sqrt (normCoef vectors nocc.length (nocc.headD 0)
      (nmo.headD 0 - nocc.headD 0) r) *
      Real.sqrt (normCoef vectors nocc.length (nocc.headD 0)
      (nmo.headD 0 - nocc.headD 0) r) =
      normCoef vectors nocc.length (nocc.headD 0)
      (nmo.headD 0 - nocc.headD 0) r :=
    Real.mul_self_sqrt (le_of_lt hpos)
  simp only [amplitudes, Complex.normSq_div, Complex.normSq_ofReal, hsq,
    ← Finset.sum_div, div_sub_div_same, ← mul_div_assoc]
  exact div_self (ne_of_gt hpos)

/-- C5: with heterogeneous per-k-point occupied counts or AO counts,
`vector_to_amplitudes` raises the corresponding `NotImplementedError` (the
occupied-count check runs first), and never returns amplitudes. -/
theorem vector_to_amplitudes_heterogeneous_raises (vectors : Vecs)
    (nocc nmo : List ℕ)
    (h : ¬ nocc.all (fun i => i == nocc.headD 0) = true ∨
         ¬ nmo.all (fun i => i == nmo.headD 0) = true) :
    (¬ nocc.all (fun i => i == nocc.headD 0) = true ∧
      vector_to_amplitudes vectors nocc nmo =
        Except.error "Varying occupation numbers are not implemented yet") ∨
    (nocc.all (fun i => i == nocc.headD 0) = true ∧
      ¬ nmo.all (fun i => i == nmo.headD 0) = true ∧
      vector_to_amplitudes vectors nocc nmo =
        Except.error "Varying AO spaces are not implemented yet") := by
  by_cases h1 : nocc.all (fun i => i == nocc.headD 0) = true
  · have h2 : ¬ nmo.all (fun i => i == nmo.headD 0) = true := by
      rcases h with h | h
      · exact absurd h1 h
      · exact h
    right
    exact ⟨h1, h2, by simp only [vector_to_amplitudes, if_pos h1, if_neg h2]⟩
  · left
    exact ⟨h1, by simp only [vector_to_amplitudes, if_neg h1]⟩

/-! ## In-place mutation of the caller's eigenvector buffer (C10)

`numpy.asanyarray` returns an already-`ndarray` argument unchanged,
`reshape` of a contiguous array returns a view on the same buffer, and the
in-place division `vectors /= norm ** .5` writes through that view, with
`norm` (shape `(nroots,)`) broadcast along the last (root) axis.  The
state-passing embedding threads the caller's flat buffer through the call:
position `f` of the buffer belongs to root `f % nroots`. -/

/-- The eigenvector matrix stored in a row-major flat buffer: matrix element
`(i, r)` lives at buffer position `i * nroots + r`. -/
def bufMatrix (buf : ℕ → ℂ) (nroots : ℕ) : Vecs :=
  fun i r => buf (i * nroots + r)

/-- The caller's buffer after the in-place division: every position is
divided by the square root of the normalization coefficient of its root. -/
noncomputable def inplaceBuf (buf : ℕ → ℂ) (nroots : ℕ) (nocc nmo : List ℕ) :
    ℕ → ℂ :=
  fun f => buf f /
    (Real.sqrt (normCoef (bufMatrix buf nroots) nocc.length (nocc.headD 0)
      (nmo.headD 0 - nocc.headD 0) (f % nroots)) : ℂ)

/-- The amplitude tensor returned by the in-place variant: a root-first view
of the mutated buffer. -/
noncomputable def inplaceAmps (buf : ℕ → ℂ) (nroots : ℕ) (nocc nmo : List ℕ) :
    Amps :=
  fun r x k1 k2 o v =>
    inplaceBuf buf nroots nocc nmo
      (flat5 nocc.length (nocc.headD 0) (nmo.headD 0 - nocc.headD 0)
        x k1 k2 o v * nroots + r)

/-- State-passing embedding of `vector_to_amplitudes` on a numpy array whose
reshape yields a view: returns the caller's (mutated) buffer together with
the amplitude tensor. -/
noncomputable def vector_to_amplitudes_inplace (buf : ℕ → ℂ) (nroots : ℕ)
    (nocc nmo : List ℕ) : Except String ((ℕ → ℂ) × Amps) :=
  if nocc.all (fun i => i == nocc.headD 0) then
    if nmo.all (fun i => i == nmo.headD 0) then
      .ok (inplaceBuf buf nroots nocc nmo, inplaceAmps buf nroots nocc nmo)
    else .error "Varying AO spaces are not implemented yet"
  else .error "Varying occupation numbers are not implemented yet"

/-- C10: `vector_to_amplitudes` is not side-effect-free on its argument —
after the call, the caller's buffer holds exactly the normalized amplitude
values (the entry of root `r` at multi-index `(x,k1,k2,o,v)` of the pure
result), and the returned tensor aliases that mutated buffer. -/
theorem vector_to_amplitudes_mutates_input (buf : ℕ → ℂ) (nroots : ℕ)
    (nocc nmo : List ℕ) (buf2 : ℕ → ℂ) (amps : Amps) (x k1 k2 o v r : ℕ)
    (hok : vector_to_amplitudes_inplace buf nroots nocc nmo =
      Except.ok (buf2, amps))
    (hr : r < nroots) :
    buf2 (flat5 nocc.length (nocc.headD 0) (nmo.headD 0 - nocc.headD 0)
        x k1 k2 o v * nroots + r) =
      amplitudes (bufMatrix buf nroots) nocc nmo r x k1 k2 o v ∧
    amps r x k1 k2 o v =
      amplitudes (bufMatrix buf nroots) nocc nmo r x k1 k2 o v := by
  have hpair : buf2 = inplaceBuf buf nroots nocc nmo ∧
      amps = inplaceAmps buf nroots nocc nmo := by
    unfold vector_to_amplitudes_inplace at hok
    split_ifs at hok
    have := Except.ok.inj hok
    exact ⟨(congrArg Prod.fst this).symm, (congrArg Prod.snd this).symm⟩
  obtain ⟨hb, ha⟩ := hpair
  subst hb
  subst ha
  have hmod : (flat5 nocc.length (nocc.headD 0) (nmo.headD 0 - nocc.headD 0)
      x k1 k2 o v * nroots + r) % nroots = r := by
    rw [Nat.add_comm, Nat.add_mul_mod_self_right, Nat.mod_eq_of_lt hr]
  constructor
  · simp only [inplaceBuf, hmod]
    rfl
  · simp only [inplaceAmps, inplaceBuf, hmod]
    rfl

/-! ## Driver and container (`kernel`, `TDRHF`) -/

/-- Eigenvalues of the selected (positive) roots. -/
abbrev Vals := ℕ → ℚ

/-- The assembled response matrix (produced by the external
`td.build_matrix`). -/
abbrev RespMat := ℕ → ℕ → ℂ

/-- An ERI provider instance: one of the three classes
`PhysERI`, `PhysERI4`, `PhysERI8`, each holding its base model
(`isinstance(model, PhysERI)` succeeds for all three). -/
inductive ERIProv where
  | full (m : KModel)
  | p4 (m : KModel)
  | p8 (m : KModel)

/-- `eri.model`: the base mean-field model held by a provider. -/
def ERIProv.model : ERIProv → KModel
  | .full m => m
  | .p4 m => m
  | .p8 m => m

/-- `k_nocc(model)`: the per-k-point occupied-orbital counts, as a tuple. -/
def k_nocc (m : KModel) : List ℕ :=
  (List.range m.nk).map m.nocc

/-- `k_nmo(model)`: the per-k-point AO counts, as a tuple. -/
def k_nmo (m : KModel) : List ℕ :=
  (List.range m.nk).map m.nmo

/-- Provider selection in `kernel` for a raw mean-field model: complex
orbital coefficients select `PhysERI4`, real ones select `PhysERI8`. -/
def selectERI (m : KModel) : ERIProv :=
  if m.iscomplex then .p4 m else .p8 m

/-- The provider used by `kernel`: a pre-built provider instance is used
as-is, a raw model goes through dtype-based selection. -/
def kernelERI : KModel ⊕ ERIProv → ERIProv
  | .inl m => selectERI m
  | .inr e => e

theorem selectERI_model (m : KModel) : (selectERI m).model = m := by
  unfold selectERI
  by_cases hc : m.iscomplex <;> simp [hc, ERIProv.model]

/-- `kernel(model, driver, nroots, return_eri=True)`: resolve the provider,
assemble the matrix and diagonalize (the external `build_matrix` and `eig`,
abstracted as the function parameters `bm` and `eigFn`), reshape the
eigenvectors into amplitudes, and return eigenvalues, amplitudes and the
provider; any failure (here: the reshaper's `NotImplementedError`)
propagates. -/
noncomputable def kernelFn (bm : ERIProv → RespMat)
    (eigFn : RespMat → Option String → Option ℕ → Vals × Vecs)
    (inp : KModel ⊕ ERIProv) (driver : Option String) (nroots : Option ℕ) :
    Except String (Vals × Amps × ERIProv) :=
  match vector_to_amplitudes (eigFn (bm (kernelERI inp)) driver nroots).2
      (k_nocc (kernelERI inp).model) (k_nmo (kernelERI inp).model) with
  | .error msg => .error msg
  | .ok amps => .ok ((eigFn (bm (kernelERI inp)) driver nroots).1, amps, kernelERI inp)

/-- The `TDRHF` container: the base mean-field reference, the solver
configuration, the cached ERI provider, and the stored results. -/
structure TDRHFState where
  scf : KModel
  driver : Option String
  nroots : Option ℕ
  eri : Option ERIProv
  xy : Option Amps
  e : Option Vals

/-- The first argument of the `kernel` call inside `TDRHF.kernel`:
`self._scf if self.eri is None else self.eri`. -/
def TDRHF_input (s : TDRHFState) : KModel ⊕ ERIProv :=
  match s.eri with
  | none => Sum.inl s.scf
  | some e => Sum.inr e

/-- `TDRHF.kernel()`: run `kernel` on the cached provider (or the raw model
when none is cached); on success assign `self.e, self.xy, self.eri` at once
and return `(e, xy)`; on failure the assignment never executes and the state
is returned untouched. -/
noncomputable def TDRHF_kernel (bm : ERIProv → RespMat)
    (eigFn : RespMat → Option String → Option ℕ → Vals × Vecs)
    (s : TDRHFState) : TDRHFState × Except String (Vals × Amps) :=
  match kernelFn bm eigFn (TDRHF_input s) s.driver s.nroots with
  | .error msg => (s, .error msg)
  | .ok (v, a, er) =>
      ({ s with e := some v, xy := some a, eri := some er }, .ok (v, a))

/-- C9: when the underlying `kernel` call raises, `TDRHF.kernel` propagates
the failure and the container's stored state (`e`, `xy`, `eri`) is left
exactly as before the failed invocation. -/
theorem TDRHF_kernel_failure_preserves_state (bm : ERIProv → RespMat)
    (eigFn : RespMat → Option String → Option ℕ → Vals × Vecs)
    (s : TDRHFState) (msg : String)
    (h : kernelFn bm eigFn (TDRHF_input s) s.driver s.nroots =
      Except.error msg) :
    TDRHF_kernel bm eigFn s = (s, Except.error msg) := by
  simp only [TDRHF_kernel, h]

/-- C8: with no cached provider, a successful `TDRHF.kernel` call stores the
provider selected from the model; a second call reuses that provider instead
of rebuilding, leaves the state unchanged, and returns exactly the
eigenvalues and amplitudes of the first call, which also coincide with a
direct `kernel` call on the same model with the same driver and root count. -/
theorem TDRHF_kernel_idempotent (bm : ERIProv → RespMat)
    (eigFn : RespMat → Option String → Option ℕ → Vals × Vecs)
    (s s1 : TDRHFState) (v1 : Vals) (a1 : Amps)
    (h0 : s.eri = none)
    (h1 : TDRHF_kernel bm eigFn s = (s1, Except.ok (v1, a1))) :
    s1.eri = some (selectERI s.scf) ∧
    TDRHF_kernel bm eigFn s1 = (s1, Except.ok (v1, a1)) ∧
    kernelFn bm eigFn (Sum.inl s.scf) s.driver s.nroots =
      Except.ok (v1, a1, selectERI s.scf) := by
  have hin : TDRHF_input s = Sum.inl s.scf := by
    simp [TDRHF_input, h0]
  simp only [TDRHF_kernel, hin] at h1
  simp only [kernelFn, kernelERI, selectERI_model] at h1 ⊢
  rcases hv : vector_to_amplitudes
      (eigFn (bm (selectERI s.scf)) s.driver s.nroots).2
      (k_nocc s.scf) (k_nmo s.scf) with msg | amps
  · rw [hv] at h1
    simp at h1
  · rw [hv] at h1
    simp only [Prod.mk.injEq, Except.ok.injEq] at h1
    obtain ⟨hs1, hv1, ha1⟩ := h1
    subst hv1
    subst ha1
    subst hs1
    refine ⟨rfl, ?_, rfl⟩
    have hin1 : TDRHF_input { s with
        e := some (eigFn (bm (selectERI s.scf)) s.driver s.nroots).1,
        xy := some amps, eri := some (selectERI s.scf) } =
        Sum.inr (selectERI s.scf) := rfl
    simp only [TDRHF_kernel, hin1, kernelFn, kernelERI, selectERI_model]
    rw [hv]

/-! ## Merged ERI blocks (`PhysERI.eri_mknj`) -/

/-- Modelled from the spec: `numpy.block` assembly of a grid of uniformly
shaped `r × c` sub-blocks into one 2-D block matrix ("laying them out as a
2-D block matrix", spec §4.2); entry `(a, b)` of the assembly comes from
sub-block `(a / r, b / c)` at local position `(a % r, b % c)`. -/
def np_block (r c : ℕ) (grid : List (List (ℕ → ℕ → ℚ))) : ℕ → ℕ → ℚ :=
  fun a b => ((grid.getD (a / r) []).getD (b / c) (fun _ _ => 0)) (a % r) (b % c)

/-- `PhysERI.eri_mknj`: materialize the column-pair iterable
(`pairs_column = tuple(pairs_column)`), collect one `eri_mknj_k` sub-block
per (row pair, column pair) — the same materialized column list is traversed
once per row — assemble with `numpy.block`, and divide by the number of
k-points.  `B` abstracts the inherited molecular `eri_mknj_k` sub-block
routine, whose sub-blocks have the uniform 2-D shape `r × c`. -/
def eri_mknj (nk r c : ℕ) (B : ℕ × ℕ → ℕ × ℕ → ℕ → ℕ → ℚ)
    (pairs_row pairs_column : List (ℕ × ℕ)) : ℕ → ℕ → ℚ :=
  fun a b =>
    np_block r c (pairs_row.map fun rp => pairs_column.map fun cp => B rp cp)
      a b / (nk : ℚ)

/-- C7: merged-block retrieval produces the 2-D block matrix whose `(i, j)`
sub-block is the per-quadruple block of the `i`-th row pair and `j`-th column
pair, with the whole result divided by the number of k-points; every row `i`
reads the same materialized column-pair list. -/
theorem eri_mknj_block_layout (nk r c : ℕ) (B : ℕ × ℕ → ℕ × ℕ → ℕ → ℕ → ℚ)
    (pr pc : List (ℕ × ℕ)) (i j p q : ℕ)
    (hi : i < pr.length) (hj : j < pc.length) (hp : p < r) (hq : q < c) :
    eri_mknj nk r c B pr pc (i * r + p) (j * c + q) =
      B (pr.get ⟨i, hi⟩) (pc.get ⟨j, hj⟩) p q / (nk : ℚ) := by
  have hr : 0 < r := Nat.lt_of_le_of_lt (Nat.zero_le p) hp
  have hc : 0 < c := Nat.lt_of_le_of_lt (Nat.zero_le q) hq
  have hdiv1 : (i * r + p) / r = i := by
    rw [Nat.mul_comm, Nat.mul_add_div hr, Nat.div_eq_of_lt hp, Nat.add_zero]
  have hmod1 : (i * r + p) % r = p := by
    rw [Nat.mul_comm, Nat.mul_add_mod, Nat.mod_eq_of_lt hp]
  have hdiv2 : (j * c + q) / c = j := by
    rw [Nat.mul_comm, Nat.mul_add_div hc, Nat.div_eq_of_lt hq, Nat.add_zero]
  have hmod2 : (j * c + q) % c = q := by
    rw [Nat.mul_comm, Nat.mul_add_mod, Nat.mod_eq_of_lt hq]
  have hmap : i < (pr.map fun rp => pc.map fun cp => B rp cp).length := by
    rw [List.length_map]
    exact hi
  unfold eri_mknj np_block
  rw [hdiv1, hmod1, hdiv2, hmod2]
  rw [List.getD_eq_getElem _ _ hmap, List.getElem_map]
  have hj2 : j < (pc.map fun cp => B (pr[i]) cp).length := by
    rw [List.length_map]
    exact hj
  rw [List.getD_eq_getElem _ _ hj2, List.getElem_map]
  rfl

/-! ## Concrete witnesses -/

/-- A small concrete 2-k-point model (1 occupied, 1 virtual orbital per
k-point, real orbitals) used to instantiate the theorems. -/
def exampleModel : KModel where
  nk := 2
  nocc := fun _ => 1
  nmo := fun _ => 2
  mo_coeff := fun k a p => (k + a + p : ℚ)
  mo_energy := fun _ _ => 0
  get_kconserv := fun k1 k2 k3 => (k1 + k2 + k3) % 2
  eriAO := fun _ _ _ _ _ _ _ _ => 1
  iscomplex := false

theorem PhysERI_block_eq_PhysERI4_block_witness :
    (0 < exampleModel.nk ∧ physKconserv exampleModel 0 0 0 = 0) ∧
    PhysERI_calc_block exampleModel ('o', 'v', 'o', 'v') (0, 0, 0, 0) =
      PhysERI4_calc_block exampleModel ('o', 'v', 'o', 'v') (0, 0, 0, 0) :=
  ⟨⟨by decide, by decide⟩,
    PhysERI_block_eq_PhysERI4_block exampleModel ('o', 'v', 'o', 'v') 0 0 0 0
      (by decide) (by decide) (by decide) (by decide)⟩

theorem calc_block_conservation_miss_witness :
    physKconserv exampleModel 0 0 0 ≠ 1 ∧
    PhysERI_calc_block exampleModel ('o', 'v', 'o', 'v') (0, 0, 0, 1) =
      zeroBlk exampleModel ('o', 'v', 'o', 'v') (0, 0, 0, 1) :=
  ⟨by decide,
    (calc_block_conservation_miss exampleModel ('o', 'v', 'o', 'v') 0 0 0 1
      (by decide)).1⟩

theorem PhysERI_cache_invariants_witness :
    (0 < exampleModel.nk) ∧
    (cacheKeys exampleModel).length = exampleModel.nk ^ 3 ∧
    (0, 0, 0, physKconserv exampleModel 0 0 0) ∈ cacheKeys exampleModel :=
  ⟨by decide,
    (PhysERI_cache_invariants exampleModel ('o', 'v', 'o', 'v') 0 0 0
      (by decide) (by decide) (by decide)).1,
    (PhysERI_cache_invariants exampleModel ('o', 'v', 'o', 'v') 0 0 0
      (by decide) (by decide) (by decide)).2.2.2.1⟩

/-- A concrete eigenvector matrix: a pure-`x` unit excitation in every
column. -/
noncomputable def wVecs : Vecs := fun i _ => if i = 0 then 1 else 0

theorem vector_to_amplitudes_normalized_witness :
    vector_to_amplitudes wVecs [1] [2] =
      Except.ok (amplitudes wVecs [1] [2]) ∧
    0 < normCoef wVecs (List.length [1]) (List.headD [1] 0)
      (List.headD [2] 0 - List.headD [1] 0) 0 ∧
    2 * ((∑ k1 ∈ range (List.length [1]), ∑ k2 ∈ range (List.length [1]),
            ∑ o ∈ range (List.headD [1] 0),
              ∑ v ∈ range (List.headD [2] 0 - List.headD [1] 0),
              Complex.normSq (amplitudes wVecs [1] [2] 0 0 k1 k2 o v)) -
         (∑ k1 ∈ range (List.length [1]), ∑ k2 ∈ range (List.length [1]),
            ∑ o ∈ range (List.headD [1] 0),
              ∑ v ∈ range (List.headD [2] 0 - List.headD [1] 0),
              Complex.normSq (amplitudes wVecs [1] [2] 0 1 k1 k2 o v))) = 1 := by
  have hpos : 0 < normCoef wVecs (List.length [1]) (List.headD [1] 0)
      (List.headD [2] 0 - List.headD [1] 0) 0 := by
    norm_num [normCoef, sumNormSq, reshaped, flat5, wVecs]
  exact ⟨rfl, hpos,
    vector_to_amplitudes_normalized wVecs [1] [2] (amplitudes wVecs [1] [2]) 0
      rfl hpos⟩

theorem vector_to_amplitudes_heterogeneous_raises_witness :
    (¬ List.all [1, 2] (fun i => i == List.headD [1, 2] 0) = true ∨
      ¬ List.all [2, 2] (fun i => i == List.headD [2, 2] 0) = true) ∧
    ((¬ List.all [1, 2] (fun i => i == List.headD [1, 2] 0) = true ∧
        vector_to_amplitudes wVecs [1, 2] [2, 2] =
          Except.error "Varying occupation numbers are not implemented yet") ∨
      (List.all [1, 2] (fun i => i == List.headD [1, 2] 0) = true ∧
        ¬ List.all [2, 2] (fun i => i == List.headD [2, 2] 0) = true ∧
        vector_to_amplitudes wVecs [1, 2] [2, 2] =
          Except.error "Varying AO spaces are not implemented yet")) :=
  ⟨Or.inl (by decide),
    vector_to_amplitudes_heterogeneous_raises wVecs [1, 2] [2, 2]
      (Or.inl (by decide))⟩

/-- A concrete abstract sub-block routine for the merged-block witness. -/
def wB : ℕ × ℕ → ℕ × ℕ → ℕ → ℕ → ℚ :=
  fun rp cp p q => (3 * rp.2 + 5 * cp.1 + 7 * p + q : ℚ)

theorem eri_mknj_block_layout_witness :
    (1 < ([(0, 0), (0, 1)] : List (ℕ × ℕ)).length ∧
      0 < ([(1, 0)] : List (ℕ × ℕ)).length ∧ 0 < 1 ∧ 0 < 1) ∧
    eri_mknj 2 1 1 wB [(0, 0), (0, 1)] [(1, 0)] (1 * 1 + 0) (0 * 1 + 0) =
      wB (List.get [(0, 0), (0, 1)] ⟨1, by decide⟩)
        (List.get [(1, 0)] ⟨0, by decide⟩) 0 0 / (2 : ℚ) :=
  ⟨⟨by decide, by decide, by decide, by decide⟩,
    eri_mknj_block_layout 2 1 1 wB [(0, 0), (0, 1)] [(1, 0)] 1 0 0 0
      (by decide) (by decide) (by decide) (by decide)⟩

/-- A trivial response-matrix builder for the container witnesses. -/
noncomputable def wBm : ERIProv → RespMat := fun _ _ _ => 0

/-- A trivial eigensolver for the container witnesses. -/
noncomputable def wEig : RespMat → Option String → Option ℕ → Vals × Vecs :=
  fun _ _ _ => (fun _ => 0, fun _ _ => 0)

/-- A freshly constructed container on the example model. -/
def wS : TDRHFState :=
  ⟨exampleModel, none, none, none, none, none⟩

/-- The eigenvalues of the first container invocation. -/
noncomputable def wV1 : Vals :=
  (wEig (wBm (selectERI exampleModel)) none none).1

/-- The amplitudes of the first container invocation. -/
noncomputable def wA1 : Amps :=
  amplitudes (wEig (wBm (selectERI exampleModel)) none none).2
    (k_nocc exampleModel) (k_nmo exampleModel)

/-- The container state after the first successful invocation. -/
noncomputable def wS1 : TDRHFState :=
  { wS with e := some wV1, xy := some wA1, eri := some (selectERI exampleModel) }

theorem TDRHF_kernel_idempotent_witness :
    wS.eri = none ∧
    TDRHF_kernel wBm wEig wS = (wS1, Except.ok (wV1, wA1)) ∧
    wS1.eri = some (selectERI exampleModel) ∧
    TDRHF_kernel wBm wEig wS1 = (wS1, Except.ok (wV1, wA1)) ∧
    kernelFn wBm wEig (Sum.inl exampleModel) none none =
      Except.ok (wV1, wA1, selectERI exampleModel) := by
  have h1 : TDRHF_kernel wBm wEig wS = (wS1, Except.ok (wV1, wA1)) := rfl
  obtain ⟨c1, c2, c3⟩ := TDRHF_kernel_idempotent wBm wEig wS wS1 wV1 wA1 rfl h1
  exact ⟨rfl, h1, c1, c2, c3⟩

/-- A model with heterogeneous occupied counts per k-point: `k_nocc` gives
`[1, 2]`, so the reshaper inside `kernel` raises. -/
def wBadModel : KModel :=
  { exampleModel with nocc := fun k => k + 1 }

/-- A freshly constructed container on the heterogeneous model. -/
def wSBad : TDRHFState :=
  ⟨wBadModel, none, none, none, none, none⟩

theorem TDRHF_kernel_failure_preserves_state_witness :
    kernelFn wBm wEig (TDRHF_input wSBad) wSBad.driver wSBad.nroots =
      Except.error "Varying occupation numbers are not implemented yet" ∧
    TDRHF_kernel wBm wEig wSBad =
      (wSBad, Except.error "Varying occupation numbers are not implemented yet") :=
  ⟨rfl, TDRHF_kernel_failure_preserves_state wBm wEig wSBad
    "Varying occupation numbers are not implemented yet" rfl⟩

/-- A concrete eigenvector buffer for the in-place mutation witness. -/
noncomputable def wBuf : ℕ → ℂ := fun f => if f = 0 then 1 else 0

theorem vector_to_amplitudes_mutates_input_witness :
    vector_to_amplitudes_inplace wBuf 1 [1] [2] =
      Except.ok (inplaceBuf wBuf 1 [1] [2], inplaceAmps wBuf 1 [1] [2]) ∧
    0 < 1 ∧
    (inplaceBuf wBuf 1 [1] [2]
        (flat5 (List.length [1]) (List.headD [1] 0)
          (List.headD [2] 0 - List.headD [1] 0) 0 0 0 0 0 * 1 + 0) =
      amplitudes (bufMatrix wBuf 1) [1] [2] 0 0 0 0 0 0 ∧
     inplaceAmps wBuf 1 [1] [2] 0 0 0 0 0 0 =
      amplitudes (bufMatrix wBuf 1) [1] [2] 0 0 0 0 0 0) :=
  ⟨rfl, by decide,
    vector_to_amplitudes_mutates_input wBuf 1 [1] [2]
      (inplaceBuf wBuf 1 [1] [2]) (inplaceAmps wBuf 1 [1] [2]) 0 0 0 0 0 0
      rfl (by decide)⟩
